import Mathlib

/-!
Shallow embedding of the `trie-rs` crate (`src/lib.rs`): a trie over
sequences of labels, with `push`, `build_index` (post-order aggregation of
per-node completion caches, called `subwords` in the source), `search`
(continuation lookup requiring the index) and `common_prefix_search`
(index-free walk along the query).

The Rust `HashMap<Label, Node<Label>>` of children is modelled as an
association list in insertion order: `lookupChild` models `HashMap::get`,
`insertChild` models `HashMap::entry(..).or_insert_with(..)` (replace the
existing binding in place, or append a fresh one).  Iteration order of the
Rust map is unspecified; the association-list order is one admissible
iteration order, and every order-independent statement proved below holds
for the Rust code under any iteration order.
-/

namespace TrieRs

/-- `Node<Label>` from the source: leaf flag `is_leaf`, cached completion
list `subwords`, and the children map. -/
inductive Node (Label : Type) : Type where
  | mk : Bool → List (List Label) → List (Label × Node Label) → Node Label

variable {Label : Type}

/-- Field accessor for the leaf flag. -/
def Node.is_leaf : Node Label → Bool
  | .mk b _ _ => b

/-- Field accessor for the cached completions (`subwords` in the source). -/
def Node.subwords : Node Label → List (List Label)
  | .mk _ s _ => s

/-- Field accessor for the children map. -/
def Node.children : Node Label → List (Label × Node Label)
  | .mk _ _ cs => cs

/-- `Node::default()`: not a leaf, empty cache, no children. -/
def Node.defaultNode : Node Label := .mk false [] []

/-- `children.get(label)` on the association-list model of the map. -/
def lookupChild [DecidableEq Label] : List (Label × Node Label) → Label → Option (Node Label)
  | [], _ => none
  | (k, v) :: rest, l => if k = l then some v else lookupChild rest l

/-- `children.entry(label).or_insert_with(default)` followed by writing the
updated child back: replace the binding in place when the key is present,
append it otherwise. -/
def insertChild [DecidableEq Label] : List (Label × Node Label) → Label → Node Label → List (Label × Node Label)
  | [], l, v => [(l, v)]
  | (k, w) :: rest, l, v => if k = l then (k, v) :: rest else (k, w) :: insertChild rest l v

/-- `Trie::push`, written as recursion on the pushed sequence: descend into
(or create) the child for each label, and mark the final node as a leaf. -/
def Node.push [DecidableEq Label] : Node Label → List Label → Node Label
  | n, [] => .mk true n.subwords n.children
  | n, l :: rest =>
      let child := (lookupChild n.children l).getD Node.defaultNode
      .mk n.is_leaf n.subwords (insertChild n.children l (child.push rest))

/-- The walk loop shared by `search` (and implicitly by
`common_prefix_search`): follow the query labels from a node, returning the
arrived node or `none` when some label has no child. -/
def walk [DecidableEq Label] : Node Label → List Label → Option (Node Label)
  | n, [] => some n
  | n, l :: rest =>
      match lookupChild n.children l with
      | some c => walk c rest
      | none => none

/-- A sequence is stored in (the subtree of) a node when walking it ends at
a leaf-flagged node. -/
def Node.contains [DecidableEq Label] : Node Label → List Label → Bool
  | n, [] => n.is_leaf
  | n, l :: rest =>
      match lookupChild n.children l with
      | some c => c.contains rest
      | none => false

mutual
/-- `_build_index` from the source: post-order pass that recomputes every
node's `subwords` as (own entry when a leaf, then the children's recomputed
`subwords` in iteration order), each word being the full path from the
root, threaded through the `prefix` accumulator `pfx`. -/
def buildNode [DecidableEq Label] (pfx : List Label) : Node Label → Node Label
  | .mk leaf _ cs =>
      let cs' := buildChildren pfx cs
      let words := (if leaf then [pfx] else []) ++ (cs'.map (fun q => q.2.subwords)).flatten
      .mk leaf words cs'
/-- The `for (label, child) in node.children` loop of `_build_index`. -/
def buildChildren [DecidableEq Label] (pfx : List Label) : List (Label × Node Label) → List (Label × Node Label)
  | [] => []
  | (a, c) :: rest => (a, buildNode (pfx ++ [a]) c) :: buildChildren pfx rest
end

/-- `TrieError` from the source. -/
inductive TrieError : Type where
  | IndexNotBuilt : TrieError
  | NoResultFound : TrieError
deriving DecidableEq

/-- `Trie<Label>` from the source. -/
structure Trie (Label : Type) : Type where
  has_search_index : Bool
  root : Node Label

/-- `Trie::default()`. -/
def Trie.defaultTrie : Trie Label := ⟨false, Node.defaultNode⟩

/-- `Trie::push`. -/
def Trie.push [DecidableEq Label] (t : Trie Label) (element : List Label) : Trie Label :=
  ⟨t.has_search_index, t.root.push element⟩

/-- `Trie::build_index`: recompute every cache and set the flag. -/
def Trie.build_index [DecidableEq Label] (t : Trie Label) : Trie Label :=
  ⟨true, buildNode [] t.root⟩

/-- `Trie::search`: fail with `IndexNotBuilt` unless the flag is set, then
walk the query; a missing child is `NoResultFound`, otherwise return the
arrived node's cached `subwords`. -/
def Trie.search [DecidableEq Label] (t : Trie Label) (element : List Label) : Except TrieError (List (List Label)) :=
  if !t.has_search_index then .error .IndexNotBuilt
  else
    match walk t.root element with
    | some n => .ok n.subwords
    | none => .error .NoResultFound

/-- The loop of `common_prefix_search`: walk the query, extending the
accumulator `pfx`; after descending into a child that is a leaf, append the
accumulated prefix to `results`; on a missing child return `results` as is. -/
def cpsLoop [DecidableEq Label] (node : Node Label) (pfx : List Label) (results : List (List Label)) : List Label → List (List Label)
  | [] => results
  | l :: rest =>
      let pfx' := pfx ++ [l]
      match lookupChild node.children l with
      | some child =>
          if child.is_leaf then cpsLoop child pfx' (results ++ [pfx']) rest
          else cpsLoop child pfx' results rest
      | none => results

/-- `Trie::common_prefix_search`. -/
def Trie.common_prefix_search [DecidableEq Label] (t : Trie Label) (element : List Label) : List (List Label) :=
  cpsLoop t.root [] [] element

/-- `TrieBuilder<Label>` from the source. -/
structure TrieBuilder (Label : Type) : Type where
  build_search_index : Bool
  trie : Trie Label

/-- `TrieBuilder::new`. -/
def TrieBuilder.new (build_search_index : Bool) : TrieBuilder Label :=
  ⟨build_search_index, Trie.defaultTrie⟩

/-- `TrieBuilder::push`. -/
def TrieBuilder.push [DecidableEq Label] (b : TrieBuilder Label) (element : List Label) : TrieBuilder Label :=
  ⟨b.build_search_index, b.trie.push element⟩

/-- `TrieBuilder::build`. -/
def TrieBuilder.build [DecidableEq Label] (b : TrieBuilder Label) : Trie Label :=
  if b.build_search_index then b.trie.build_index else b.trie

/-- The trie obtained by pushing the sequences of `ws` in order into a
fresh trie (no index). -/
def trieOf [DecidableEq Label] (ws : List (List Label)) : Trie Label :=
  ws.foldl Trie.push Trie.defaultTrie

/-- The trie obtained by pushing the sequences of `ws` in order and then
building the index. -/
def builtTrie [DecidableEq Label] (ws : List (List Label)) : Trie Label :=
  (trieOf ws).build_index

mutual
/-- All root-to-node paths of the node graph: one entry per reachable node,
namely the label sequence leading to it. -/
def Node.paths : Node Label → List (List Label)
  | .mk _ _ cs => [] :: pathsChildren cs
/-- Paths contributed by a children list. -/
def pathsChildren : List (Label × Node Label) → List (List Label)
  | [] => []
  | (a, c) :: rest => (Node.paths c).map (a :: ·) ++ pathsChildren rest
end

mutual
/-- Number of nodes of the node graph. -/
def Node.countNodes : Node Label → Nat
  | .mk _ _ cs => 1 + countChildren cs
/-- Number of nodes in the subtrees of a children list. -/
def countChildren : List (Label × Node Label) → Nat
  | [] => 0
  | (_, c) :: rest => c.countNodes + countChildren rest
end

mutual
/-- Erase every cached `subwords` list, keeping leaf flags and children:
the part of a node that `push` and the queries actually consult. -/
def Node.clear : Node Label → Node Label
  | .mk b _ cs => .mk b [] (clearChildren cs)
/-- `Node.clear` mapped over a children list. -/
def clearChildren : List (Label × Node Label) → List (Label × Node Label)
  | [] => []
  | (a, c) :: rest => (a, c.clear) :: clearChildren rest
end

/-- Well-formedness of the node graph: the children keys are distinct at
every node.  Every trie reachable from `Trie::default()` by `push`
satisfies it (a `HashMap` cannot hold a key twice). -/
inductive Node.WF : Node Label → Prop where
  | mk {b : Bool} {s : List (List Label)} {cs : List (Label × Node Label)} :
      (cs.map Prod.fst).Nodup → (∀ p ∈ cs, Node.WF p.2) → Node.WF (Node.mk b s cs)

/-! ### Definitional unfolding lemmas -/

@[simp] theorem is_leaf_mk (b : Bool) (s : List (List Label)) (cs : List (Label × Node Label)) :
    (Node.mk b s cs).is_leaf = b := rfl

@[simp] theorem subwords_mk (b : Bool) (s : List (List Label)) (cs : List (Label × Node Label)) :
    (Node.mk b s cs).subwords = s := rfl

@[simp] theorem children_mk (b : Bool) (s : List (List Label)) (cs : List (Label × Node Label)) :
    (Node.mk b s cs).children = cs := rfl

@[simp] theorem push_nil [DecidableEq Label] (b : Bool) (s : List (List Label)) (cs : List (Label × Node Label)) :
    (Node.mk b s cs).push [] = Node.mk true s cs := rfl

@[simp] theorem push_cons [DecidableEq Label] (b : Bool) (s : List (List Label)) (cs : List (Label × Node Label))
    (l : Label) (e : List Label) :
    (Node.mk b s cs).push (l :: e) =
      Node.mk b s (insertChild cs l (((lookupChild cs l).getD Node.defaultNode).push e)) := rfl

@[simp] theorem contains_nil [DecidableEq Label] (b : Bool) (s : List (List Label)) (cs : List (Label × Node Label)) :
    (Node.mk b s cs).contains [] = b := rfl

theorem contains_cons [DecidableEq Label] (n : Node Label) (l : Label) (w : List Label) :
    n.contains (l :: w) =
      match lookupChild n.children l with
      | some c => c.contains w
      | none => false := by
  obtain ⟨b, s, cs⟩ := n
  rfl

@[simp] theorem walk_nil [DecidableEq Label] (n : Node Label) : walk n [] = some n := rfl

theorem walk_cons [DecidableEq Label] (n : Node Label) (l : Label) (w : List Label) :
    walk n (l :: w) =
      match lookupChild n.children l with
      | some c => walk c w
      | none => none := rfl

@[simp] theorem buildNode_mk [DecidableEq Label] (pfx : List Label) (b : Bool)
    (s : List (List Label)) (cs : List (Label × Node Label)) :
    buildNode pfx (Node.mk b s cs) =
      Node.mk b ((if b then [pfx] else []) ++ ((buildChildren pfx cs).map (fun q => q.2.subwords)).flatten)
        (buildChildren pfx cs) := rfl

@[simp] theorem buildChildren_nil [DecidableEq Label] (pfx : List Label) :
    buildChildren pfx ([] : List (Label × Node Label)) = [] := rfl

@[simp] theorem buildChildren_cons [DecidableEq Label] (pfx : List Label) (a : Label) (c : Node Label)
    (rest : List (Label × Node Label)) :
    buildChildren pfx ((a, c) :: rest) = (a, buildNode (pfx ++ [a]) c) :: buildChildren pfx rest := rfl

@[simp] theorem paths_mk (b : Bool) (s : List (List Label)) (cs : List (Label × Node Label)) :
    (Node.mk b s cs).paths = [] :: pathsChildren cs := rfl

@[simp] theorem pathsChildren_nil : pathsChildren ([] : List (Label × Node Label)) = [] := rfl

@[simp] theorem pathsChildren_cons (a : Label) (c : Node Label) (rest : List (Label × Node Label)) :
    pathsChildren ((a, c) :: rest) = (Node.paths c).map (a :: ·) ++ pathsChildren rest := rfl

@[simp] theorem countNodes_mk (b : Bool) (s : List (List Label)) (cs : List (Label × Node Label)) :
    (Node.mk b s cs).countNodes = 1 + countChildren cs := rfl

@[simp] theorem countChildren_nil : countChildren ([] : List (Label × Node Label)) = 0 := rfl

@[simp] theorem countChildren_cons (a : Label) (c : Node Label) (rest : List (Label × Node Label)) :
    countChildren ((a, c) :: rest) = c.countNodes + countChildren rest := rfl

@[simp] theorem clear_mk (b : Bool) (s : List (List Label)) (cs : List (Label × Node Label)) :
    (Node.mk b s cs).clear = Node.mk b [] (clearChildren cs) := rfl

@[simp] theorem clearChildren_nil : clearChildren ([] : List (Label × Node Label)) = [] := rfl

@[simp] theorem clearChildren_cons (a : Label) (c : Node Label) (rest : List (Label × Node Label)) :
    clearChildren ((a, c) :: rest) = (a, c.clear) :: clearChildren rest := rfl

@[simp] theorem cpsLoop_nil [DecidableEq Label] (node : Node Label) (pfx : List Label)
    (results : List (List Label)) : cpsLoop node pfx results [] = results := rfl

theorem cpsLoop_cons [DecidableEq Label] (node : Node Label) (pfx : List Label)
    (results : List (List Label)) (l : Label) (rest : List Label) :
    cpsLoop node pfx results (l :: rest) =
      match lookupChild node.children l with
      | some child =>
          if child.is_leaf then cpsLoop child (pfx ++ [l]) (results ++ [pfx ++ [l]]) rest
          else cpsLoop child (pfx ++ [l]) results rest
      | none => results := rfl

/-! ### Association-list lemmas -/

theorem lookup_insert [DecidableEq Label] (cs : List (Label × Node Label)) (l k : Label) (v : Node Label) :
    lookupChild (insertChild cs l v) k = if l = k then some v else lookupChild cs k := by
  induction cs with
  | nil =>
      simp only [insertChild, lookupChild]
  | cons p rest ih =>
      obtain ⟨a, c⟩ := p
      by_cases hal : a = l
      · subst hal
        simp only [insertChild, if_pos rfl, lookupChild]
        by_cases hk : a = k <;> simp [hk, lookupChild]
      · simp only [insertChild, if_neg hal, lookupChild]
        by_cases hk : a = k
        · subst hk
          have hlk : ¬ l = a := fun h => hal h.symm
          simp [hlk]
        · simp [hk, ih]

theorem insert_insert [DecidableEq Label] (cs : List (Label × Node Label)) (l : Label) (v w : Node Label) :
    insertChild (insertChild cs l v) l w = insertChild cs l w := by
  induction cs with
  | nil => simp [insertChild]
  | cons p rest ih =>
      obtain ⟨a, c⟩ := p
      by_cases hal : a = l
      · simp [insertChild, hal]
      · simp [insertChild, hal, ih]

theorem keys_insert [DecidableEq Label] (cs : List (Label × Node Label)) (l : Label) (v : Node Label) :
    (insertChild cs l v).map Prod.fst =
      if l ∈ cs.map Prod.fst then cs.map Prod.fst else cs.map Prod.fst ++ [l] := by
  induction cs with
  | nil => simp [insertChild]
  | cons p rest ih =>
      obtain ⟨a, c⟩ := p
      by_cases hal : a = l
      · simp [insertChild, hal]
      · simp only [insertChild, if_neg hal, List.map_cons, ih]
        have hla : ¬ l = a := fun h => hal h.symm
        by_cases hm : l ∈ rest.map Prod.fst <;> simp [hm, List.mem_cons, hla]

theorem mem_insert [DecidableEq Label] {cs : List (Label × Node Label)} {l : Label} {v : Node Label}
    {p : Label × Node Label} (h : p ∈ insertChild cs l v) : p = (l, v) ∨ p ∈ cs := by
  induction cs with
  | nil => simpa [insertChild] using h
  | cons q rest ih =>
      obtain ⟨a, c⟩ := q
      by_cases hal : a = l
      · subst hal
        simp only [insertChild, if_pos rfl] at h
        rcases List.mem_cons.mp h with h | h
        · exact Or.inl h
        · exact Or.inr (List.mem_cons_of_mem _ h)
      · simp only [insertChild, if_neg hal] at h
        rcases List.mem_cons.mp h with h | h
        · refine Or.inr ?_
          rw [h]
          exact List.mem_cons_self _ _
        · rcases ih h with h' | h'
          · exact Or.inl h'
          · exact Or.inr (List.mem_cons_of_mem _ h')

theorem lookup_mem [DecidableEq Label] {cs : List (Label × Node Label)} {a : Label} {c : Node Label}
    (h : lookupChild cs a = some c) : (a, c) ∈ cs := by
  induction cs with
  | nil => simp [lookupChild] at h
  | cons q rest ih =>
      obtain ⟨k, v⟩ := q
      by_cases hk : k = a
      · subst hk
        simp [lookupChild] at h
        simp [h]
      · simp only [lookupChild, if_neg hk] at h
        exact List.mem_cons_of_mem _ (ih h)

theorem mem_lookup [DecidableEq Label] {cs : List (Label × Node Label)} {a : Label} {c : Node Label}
    (hnd : (cs.map Prod.fst).Nodup) (h : (a, c) ∈ cs) : lookupChild cs a = some c := by
  induction cs with
  | nil => simp at h
  | cons q rest ih =>
      obtain ⟨k, v⟩ := q
      simp only [List.map_cons, List.nodup_cons] at hnd
      rcases List.mem_cons.mp h with h' | h'
      · rw [Prod.mk.injEq] at h'
        obtain ⟨h1, h2⟩ := h'
        subst h1
        subst h2
        simp [lookupChild]
      · have hka : ¬ k = a := by
          intro hk
          subst hk
          exact hnd.1 (List.mem_map_of_mem Prod.fst h')
        simp only [lookupChild, if_neg hka]
        exact ih hnd.2 h'

theorem lookup_none [DecidableEq Label] {cs : List (Label × Node Label)} {a : Label} :
    lookupChild cs a = none ↔ a ∉ cs.map Prod.fst := by
  induction cs with
  | nil => simp [lookupChild]
  | cons q rest ih =>
      obtain ⟨k, v⟩ := q
      by_cases hk : k = a
      · subst hk
        simp [lookupChild]
      · rw [lookupChild, if_neg hk, ih]
        constructor
        · intro h hm
          rcases List.mem_cons.mp hm with h1 | h1
          · exact hk h1.symm
          · exact h h1
        · intro h hm
          exact h (List.mem_cons_of_mem _ hm)

/-! ### push, WF, contains -/

theorem subwords_push [DecidableEq Label] (n : Node Label) (e : List Label) :
    (n.push e).subwords = n.subwords := by
  obtain ⟨b, s, cs⟩ := n
  cases e <;> simp

theorem wf_defaultNode : (Node.defaultNode : Node Label).WF :=
  Node.WF.mk (by simp) (by simp)

theorem wf_push [DecidableEq Label] (e : List Label) :
    ∀ n : Node Label, n.WF → (n.push e).WF := by
  induction e with
  | nil =>
      intro n hw
      obtain ⟨b, s, cs⟩ := n
      cases hw with
      | mk hk hc => exact Node.WF.mk hk hc
  | cons l rest ih =>
      intro n hw
      obtain ⟨b, s, cs⟩ := n
      cases hw with
      | mk hk hc =>
          rw [push_cons]
          refine Node.WF.mk ?_ ?_
          · rw [keys_insert]
            by_cases hm : l ∈ cs.map Prod.fst
            · simpa [hm] using hk
            · rw [if_neg hm, List.nodup_append]
              refine ⟨hk, List.nodup_singleton l, ?_⟩
              intro x hx hxl
              rw [List.mem_singleton] at hxl
              subst hxl
              exact hm hx
          · intro p hp
            rcases mem_insert hp with h | h
            · rw [h]
              refine ih _ ?_
              rcases hlk : lookupChild cs l with _ | c
              · simpa using wf_defaultNode
              · simpa using hc _ (lookup_mem hlk)
            · exact hc _ h

theorem contains_defaultNode [DecidableEq Label] (w : List Label) :
    (Node.defaultNode : Node Label).contains w = false := by
  cases w with
  | nil => rfl
  | cons l w' => rw [contains_cons]; rfl

theorem contains_push [DecidableEq Label] (e : List Label) :
    ∀ (n : Node Label) (w : List Label),
      (n.push e).contains w = true ↔ (w = e ∨ n.contains w = true) := by
  induction e with
  | nil =>
      intro n w
      obtain ⟨b, s, cs⟩ := n
      cases w with
      | nil => simp
      | cons bw w' =>
          rw [push_nil, contains_cons, contains_cons]
          simp
  | cons a e' ih =>
      intro n w
      obtain ⟨b, s, cs⟩ := n
      cases w with
      | nil => simp
      | cons bw w' =>
          by_cases hab : a = bw
          · subst hab
            rw [push_cons, contains_cons, children_mk, lookup_insert, if_pos rfl]
            simp only
            rw [ih, contains_cons, children_mk]
            rcases hlk : lookupChild cs a with _ | c
            · simp [contains_defaultNode]
            · simp
          · rw [push_cons, contains_cons, children_mk, lookup_insert, if_neg hab,
              contains_cons, children_mk]
            have hne : ¬ (bw :: w' = a :: e') := by
              intro h
              injection h with h1 _
              exact hab h1.symm
            simp [hne]

/-! ### walk lemmas -/

theorem contains_eq_walk [DecidableEq Label] (w : List Label) :
    ∀ n : Node Label, n.contains w =
      (match walk n w with | some m => m.is_leaf | none => false) := by
  induction w with
  | nil => intro n; rfl
  | cons l rest ih =>
      intro n
      rw [contains_cons, walk_cons]
      cases hlk : lookupChild n.children l with
      | none => simp
      | some c => simp [ih c]

theorem walk_append [DecidableEq Label] (p q : List Label) :
    ∀ n : Node Label, walk n (p ++ q) = (walk n p).bind (fun m => walk m q) := by
  induction p with
  | nil => intro n; simp
  | cons l rest ih =>
      intro n
      rw [List.cons_append, walk_cons, walk_cons]
      cases hlk : lookupChild n.children l with
      | none => simp
      | some c => simp [ih c]

theorem walk_cons_some [DecidableEq Label] {n c : Node Label} {l : Label} (w : List Label)
    (hlk : lookupChild n.children l = some c) : walk n (l :: w) = walk c w := by
  rw [walk_cons, hlk]

theorem walk_cons_none [DecidableEq Label] {n : Node Label} {l : Label} (w : List Label)
    (hlk : lookupChild n.children l = none) : walk n (l :: w) = none := by
  rw [walk_cons, hlk]

theorem contains_of_walk [DecidableEq Label] {q : List Label} {n m : Node Label}
    (h : walk n q = some m) (s : List Label) :
    n.contains (q ++ s) = m.contains s := by
  rw [contains_eq_walk, walk_append, h, Option.some_bind, ← contains_eq_walk]

/-! ### foldl push over a word list -/

theorem foldl_push_eta [DecidableEq Label] (ws : List (List Label)) :
    ∀ t : Trie Label, ws.foldl Trie.push t = ⟨t.has_search_index, ws.foldl Node.push t.root⟩ := by
  induction ws with
  | nil => intro t; cases t; rfl
  | cons w rest ih =>
      intro t
      rw [List.foldl_cons, List.foldl_cons, ih]
      rfl

theorem trieOf_eq [DecidableEq Label] (ws : List (List Label)) :
    trieOf ws = ⟨false, ws.foldl Node.push Node.defaultNode⟩ :=
  foldl_push_eta ws Trie.defaultTrie

theorem wf_foldl_push [DecidableEq Label] (ws : List (List Label)) :
    ∀ n : Node Label, n.WF → (ws.foldl Node.push n).WF := by
  induction ws with
  | nil => intro n h; exact h
  | cons w rest ih =>
      intro n h
      exact ih _ (wf_push w n h)

theorem wf_trieOf [DecidableEq Label] (ws : List (List Label)) : (trieOf ws).root.WF := by
  rw [trieOf_eq]
  exact wf_foldl_push ws _ wf_defaultNode

theorem contains_foldl_push [DecidableEq Label] (ws : List (List Label)) :
    ∀ (n : Node Label) (w : List Label),
      (ws.foldl Node.push n).contains w = true ↔ (w ∈ ws ∨ n.contains w = true) := by
  induction ws with
  | nil => intro n w; simp
  | cons v rest ih =>
      intro n w
      rw [List.foldl_cons, ih, contains_push]
      rw [List.mem_cons]
      tauto

theorem contains_trieOf [DecidableEq Label] (ws : List (List Label)) (w : List Label) :
    (trieOf ws).root.contains w = true ↔ w ∈ ws := by
  rw [trieOf_eq]
  show (ws.foldl Node.push Node.defaultNode).contains w = true ↔ w ∈ ws
  rw [contains_foldl_push, contains_defaultNode]
  simp

/-! ### build_index lemmas -/

theorem lookup_buildChildren [DecidableEq Label] (pfx : List Label) (l : Label)
    (cs : List (Label × Node Label)) :
    lookupChild (buildChildren pfx cs) l = (lookupChild cs l).map (buildNode (pfx ++ [l])) := by
  induction cs with
  | nil => simp [lookupChild]
  | cons p rest ih =>
      obtain ⟨a, c⟩ := p
      rw [buildChildren_cons]
      by_cases hal : a = l
      · subst hal
        simp [lookupChild]
      · simp [lookupChild, hal, ih]

theorem walk_build [DecidableEq Label] (q : List Label) :
    ∀ (pfx : List Label) (n : Node Label),
      walk (buildNode pfx n) q = (walk n q).map (fun m => buildNode (pfx ++ q) m) := by
  induction q with
  | nil => intro pfx n; simp
  | cons l rest ih =>
      intro pfx n
      obtain ⟨b, s, cs⟩ := n
      rw [buildNode_mk, walk_cons, walk_cons]
      simp only [children_mk]
      rw [lookup_buildChildren]
      cases hlk : lookupChild cs l with
      | none => simp
      | some c =>
          simp only [Option.map_some']
          rw [ih]
          simp

theorem wf_walk [DecidableEq Label] (q : List Label) :
    ∀ {n m : Node Label}, n.WF → walk n q = some m → m.WF := by
  induction q with
  | nil =>
      intro n m hw h
      rw [walk_nil, Option.some.injEq] at h
      rwa [← h]
  | cons l rest ih =>
      intro n m hw h
      rw [walk_cons] at h
      cases hlk : lookupChild n.children l with
      | none => rw [hlk] at h; exact absurd h (by simp)
      | some c =>
          rw [hlk] at h
          refine ih ?_ h
          obtain ⟨b, s, cs⟩ := n
          cases hw with
          | mk hk hc => exact hc _ (lookup_mem hlk)

mutual
/-- Membership in the `subwords` cache computed by `_build_index`: exactly
the stored sequences of the subtree, each prefixed by the path accumulator. -/
theorem mem_build_subwords [DecidableEq Label] (pfx w : List Label) :
    ∀ n : Node Label, n.WF →
      (w ∈ (buildNode pfx n).subwords ↔ ∃ s, w = pfx ++ s ∧ n.contains s = true)
  | .mk b s cs, hw => by
      cases hw with
      | mk hk hc =>
      rw [buildNode_mk, subwords_mk, List.mem_append,
        mem_build_subwords_children pfx w cs hc]
      constructor
      · rintro (h | ⟨p, hp, s', hs', hcon⟩)
        · have hb : b = true ∧ w = pfx := by cases b <;> simp_all
          exact ⟨[], by simp [hb.2], by simp [hb.1]⟩
        · obtain ⟨a, c⟩ := p
          refine ⟨a :: s', by simpa using hs', ?_⟩
          rw [contains_cons, children_mk, mem_lookup hk hp]
          exact hcon
      · rintro ⟨sq, hwq, hcon⟩
        cases sq with
        | nil =>
            rw [contains_nil] at hcon
            left
            simp [hcon, hwq]
        | cons a s' =>
            rw [contains_cons, children_mk] at hcon
            cases hlk : lookupChild cs a with
            | none => rw [hlk] at hcon; exact absurd hcon (by simp)
            | some c =>
                rw [hlk] at hcon
                right
                exact ⟨(a, c), lookup_mem hlk, s', by simpa using hwq, hcon⟩
/-- The children part of `mem_build_subwords`. -/
theorem mem_build_subwords_children [DecidableEq Label] (pfx w : List Label) :
    ∀ cs : List (Label × Node Label), (∀ p ∈ cs, p.2.WF) →
      (w ∈ ((buildChildren pfx cs).map (fun q => q.2.subwords)).flatten ↔
        ∃ p ∈ cs, ∃ s, w = pfx ++ p.1 :: s ∧ p.2.contains s = true)
  | [], _ => by simp
  | (a, c) :: rest, h => by
      rw [buildChildren_cons, List.map_cons, List.flatten_cons, List.mem_append,
        mem_build_subwords (pfx ++ [a]) w c (h _ (List.mem_cons_self _ _)),
        mem_build_subwords_children pfx w rest (fun p hp => h p (List.mem_cons_of_mem _ hp))]
      constructor
      · rintro (⟨s', hs', hcon⟩ | ⟨p, hp, s', hs', hcon⟩)
        · exact ⟨(a, c), List.mem_cons_self _ _, s', by simpa using hs', hcon⟩
        · exact ⟨p, List.mem_cons_of_mem _ hp, s', hs', hcon⟩
      · rintro ⟨p, hp, s', hs', hcon⟩
        rcases List.mem_cons.mp hp with hp' | hp'
        · left
          rw [hp'] at hs' hcon
          exact ⟨s', by simpa using hs', hcon⟩
        · right
          exact ⟨p, hp', s', hs', hcon⟩
end

mutual
/-- The `subwords` cache computed by `_build_index` has no duplicates when
the children keys are distinct at every node. -/
theorem nodup_build_subwords [DecidableEq Label] (pfx : List Label) :
    ∀ n : Node Label, n.WF → (buildNode pfx n).subwords.Nodup
  | .mk b s cs, hw => by
      cases hw with
      | mk hk hc =>
      rw [buildNode_mk, subwords_mk]
      cases b with
      | false => simpa using nodup_build_subwords_children pfx cs hk hc
      | true =>
          rw [if_pos rfl, List.singleton_append, List.nodup_cons]
          refine ⟨?_, nodup_build_subwords_children pfx cs hk hc⟩
          intro hmem
          obtain ⟨p, _, s', hs', _⟩ := (mem_build_subwords_children pfx pfx cs hc).mp hmem
          have := congrArg List.length hs'
          simp at this
/-- The children part of `nodup_build_subwords`. -/
theorem nodup_build_subwords_children [DecidableEq Label] (pfx : List Label) :
    ∀ cs : List (Label × Node Label), (cs.map Prod.fst).Nodup → (∀ p ∈ cs, p.2.WF) →
      (((buildChildren pfx cs).map (fun q => q.2.subwords)).flatten).Nodup
  | [], _, _ => by simp
  | (a, c) :: rest, hk, h => by
      rw [List.map_cons, List.nodup_cons] at hk
      rw [buildChildren_cons, List.map_cons, List.flatten_cons, List.nodup_append]
      refine ⟨nodup_build_subwords (pfx ++ [a]) c (h _ (List.mem_cons_self _ _)),
        nodup_build_subwords_children pfx rest hk.2 (fun p hp => h p (List.mem_cons_of_mem _ hp)), ?_⟩
      intro x hx hxr
      obtain ⟨s1, hs1, _⟩ :=
        (mem_build_subwords (pfx ++ [a]) x c (h _ (List.mem_cons_self _ _))).mp hx
      obtain ⟨p, hp, s2, hs2, _⟩ :=
        (mem_build_subwords_children pfx x rest (fun p hp => h p (List.mem_cons_of_mem _ hp))).mp hxr
      rw [hs1] at hs2
      rw [List.append_assoc] at hs2
      have h2 := List.append_cancel_left hs2
      rw [List.singleton_append] at h2
      injection h2 with h3 _
      refine hk.1 ?_
      rw [h3]
      exact List.mem_map.mpr ⟨p, hp, rfl⟩
end

/-! ### search lemmas -/

theorem search_true [DecidableEq Label] (n : Node Label) (e : List Label) :
    Trie.search ⟨true, n⟩ e =
      match walk n e with
      | some m => .ok m.subwords
      | none => .error .NoResultFound := rfl

theorem search_false [DecidableEq Label] (n : Node Label) (e : List Label) :
    Trie.search ⟨false, n⟩ e = .error .IndexNotBuilt := rfl

theorem builtTrie_eq [DecidableEq Label] (ws : List (List Label)) :
    builtTrie ws = ⟨true, buildNode [] (trieOf ws).root⟩ := rfl

theorem walk_builtTrie [DecidableEq Label] (ws : List (List Label)) (Q : List Label)
    {m0 : Node Label} (h0 : walk (trieOf ws).root Q = some m0) :
    walk (builtTrie ws).root Q = some (buildNode Q m0) := by
  rw [builtTrie_eq]
  show walk (buildNode [] (trieOf ws).root) Q = _
  rw [walk_build, h0]
  simp

theorem built_search_ok [DecidableEq Label] (ws : List (List Label)) (Q : List Label)
    {m0 : Node Label} (h0 : walk (trieOf ws).root Q = some m0) :
    (builtTrie ws).search Q = .ok ((buildNode Q m0).subwords) ∧
    ((buildNode Q m0).subwords).Nodup ∧
    ∀ S, S ∈ (buildNode Q m0).subwords ↔ (S ∈ ws ∧ Q <+: S) := by
  have hwf0 : m0.WF := wf_walk Q (wf_trieOf ws) h0
  have hwq := walk_builtTrie ws Q h0
  refine ⟨?_, nodup_build_subwords Q m0 hwf0, ?_⟩
  · rw [builtTrie_eq] at hwq ⊢
    rw [search_true]
    rw [show walk (buildNode [] (trieOf ws).root) Q = some (buildNode Q m0) from hwq]
  · intro S
    rw [mem_build_subwords Q S m0 hwf0]
    constructor
    · rintro ⟨s, hS, hcon⟩
      rw [← contains_of_walk h0 s, contains_trieOf] at hcon
      exact ⟨hS ▸ hcon, ⟨s, hS.symm⟩⟩
    · rintro ⟨hmem, s, hs⟩
      refine ⟨s, hs.symm, ?_⟩
      rw [← contains_of_walk h0 s, contains_trieOf]
      rw [hs]
      exact hmem

/-! ### common_prefix_search lemmas -/

theorem contains_iff_walk [DecidableEq Label] (n : Node Label) (w : List Label) :
    n.contains w = true ↔ ∃ m, walk n w = some m ∧ m.is_leaf = true := by
  rw [contains_eq_walk]
  cases h : walk n w <;> simp

theorem cpsLoop_cons_none [DecidableEq Label] {node : Node Label} {l : Label}
    (pfx : List Label) (results : List (List Label)) (rest : List Label)
    (hlk : lookupChild node.children l = none) :
    cpsLoop node pfx results (l :: rest) = results := by
  rw [cpsLoop_cons, hlk]

theorem cpsLoop_cons_some [DecidableEq Label] {node child : Node Label} {l : Label}
    (pfx : List Label) (results : List (List Label)) (rest : List Label)
    (hlk : lookupChild node.children l = some child) :
    cpsLoop node pfx results (l :: rest) =
      if child.is_leaf then cpsLoop child (pfx ++ [l]) (results ++ [pfx ++ [l]]) rest
      else cpsLoop child (pfx ++ [l]) results rest := by
  rw [cpsLoop_cons, hlk]

theorem mem_cpsLoop [DecidableEq Label] (rest : List Label) :
    ∀ (node : Node Label) (pfx : List Label) (results : List (List Label)) (w : List Label),
      w ∈ cpsLoop node pfx results rest ↔
        (w ∈ results ∨ ∃ s, s ≠ [] ∧ s <+: rest ∧
          (∃ m, walk node s = some m ∧ m.is_leaf = true) ∧ w = pfx ++ s) := by
  induction rest with
  | nil =>
      intro node pfx results w
      rw [cpsLoop_nil]
      constructor
      · intro h
        exact Or.inl h
      · rintro (h | ⟨s, hne, hpre, _, _⟩)
        · exact h
        · exact absurd (List.prefix_nil.mp hpre) hne
  | cons l rest' ih =>
      intro node pfx results w
      cases hlk : lookupChild node.children l with
      | none =>
          rw [cpsLoop_cons_none _ _ _ hlk]
          constructor
          · intro h
            exact Or.inl h
          · rintro (h | ⟨s, hne, hpre, ⟨m, hwalk, hleaf⟩, hw⟩)
            · exact h
            · cases s with
              | nil => exact absurd rfl hne
              | cons b s' =>
                  obtain ⟨hb, _⟩ := List.cons_prefix_cons.mp hpre
                  subst hb
                  rw [walk_cons_none s' hlk] at hwalk
                  exact absurd hwalk (by simp)
      | some c =>
          by_cases hlc : c.is_leaf = true
          · rw [cpsLoop_cons_some _ _ _ hlk, if_pos hlc, ih]
            constructor
            · rintro (hres | ⟨s', hne', hpre', hwl', hw'⟩)
              · rcases List.mem_append.mp hres with h | h
                · exact Or.inl h
                · refine Or.inr ⟨[l], by simp, ⟨rest', rfl⟩, ⟨c, ?_, hlc⟩, by simpa using List.mem_singleton.mp h⟩
                  exact (walk_cons_some [] hlk).trans (walk_nil c)
              · refine Or.inr ⟨l :: s', by simp, ?_, ?_, ?_⟩
                · obtain ⟨t, ht⟩ := hpre'
                  exact ⟨t, by rw [← ht]; rfl⟩
                · obtain ⟨m, hm, hml⟩ := hwl'
                  refine ⟨m, ?_, hml⟩
                  rw [walk_cons_some s' hlk]
                  exact hm
                · rw [hw', List.append_assoc]
                  rfl
            · rintro (hres | ⟨s, hne, hpre, ⟨m, hwalk, hleaf⟩, hw⟩)
              · exact Or.inl (List.mem_append.mpr (Or.inl hres))
              · cases s with
                | nil => exact absurd rfl hne
                | cons b s' =>
                    obtain ⟨hb, hpre'⟩ := List.cons_prefix_cons.mp hpre
                    subst hb
                    rw [walk_cons_some s' hlk] at hwalk
                    cases s' with
                    | nil =>
                        rw [walk_nil, Option.some.injEq] at hwalk
                        refine Or.inl (List.mem_append.mpr (Or.inr ?_))
                        simp [hw]
                    | cons b' s'' =>
                        refine Or.inr ⟨b' :: s'', by simp, hpre', ⟨m, hwalk, hleaf⟩, ?_⟩
                        rw [hw, List.append_assoc]
                        rfl
          · rw [cpsLoop_cons_some _ _ _ hlk, if_neg hlc, ih]
            constructor
            · rintro (hres | ⟨s', hne', hpre', hwl', hw'⟩)
              · exact Or.inl hres
              · refine Or.inr ⟨l :: s', by simp, ?_, ?_, ?_⟩
                · obtain ⟨t, ht⟩ := hpre'
                  exact ⟨t, by rw [← ht]; rfl⟩
                · obtain ⟨m, hm, hml⟩ := hwl'
                  refine ⟨m, ?_, hml⟩
                  rw [walk_cons_some s' hlk]
                  exact hm
                · rw [hw', List.append_assoc]
                  rfl
            · rintro (hres | ⟨s, hne, hpre, ⟨m, hwalk, hleaf⟩, hw⟩)
              · exact Or.inl hres
              · cases s with
                | nil => exact absurd rfl hne
                | cons b s' =>
                    obtain ⟨hb, hpre'⟩ := List.cons_prefix_cons.mp hpre
                    subst hb
                    rw [walk_cons_some s' hlk] at hwalk
                    cases s' with
                    | nil =>
                        rw [walk_nil, Option.some.injEq] at hwalk
                        rw [← hwalk] at hleaf
                        exact absurd hleaf hlc
                    | cons b' s'' =>
                        refine Or.inr ⟨b' :: s'', by simp, hpre', ⟨m, hwalk, hleaf⟩, ?_⟩
                        rw [hw, List.append_assoc]
                        rfl

theorem mem_cps [DecidableEq Label] (t : Trie Label) (Q w : List Label) :
    w ∈ t.common_prefix_search Q ↔ (w ≠ [] ∧ w <+: Q ∧ t.root.contains w = true) := by
  show w ∈ cpsLoop t.root [] [] Q ↔ _
  rw [mem_cpsLoop]
  constructor
  · rintro (h | ⟨s, hne, hpre, hwl, hw⟩)
    · exact absurd h (by simp)
    · rw [List.nil_append] at hw
      subst hw
      exact ⟨hne, hpre, (contains_iff_walk t.root w).mpr hwl⟩
  · rintro ⟨hne, hpre, hcon⟩
    exact Or.inr ⟨w, hne, hpre, (contains_iff_walk t.root w).mp hcon, by simp⟩

theorem chain_cpsLoop [DecidableEq Label] (rest : List Label) :
    ∀ (node : Node Label) (pfx : List Label) (results : List (List Label)),
      List.Chain' (fun a b => a <+: b ∧ a.length < b.length) results →
      (∀ r ∈ results, r <+: pfx) →
      List.Chain' (fun a b => a <+: b ∧ a.length < b.length) (cpsLoop node pfx results rest) := by
  induction rest with
  | nil =>
      intro node pfx results hch _
      simpa using hch
  | cons l rest' ih =>
      intro node pfx results hch hpre
      cases hlk : lookupChild node.children l with
      | none =>
          rw [cpsLoop_cons_none _ _ _ hlk]
          exact hch
      | some c =>
          by_cases hlc : c.is_leaf = true
          · rw [cpsLoop_cons_some _ _ _ hlk, if_pos hlc]
            refine ih c (pfx ++ [l]) _ ?_ ?_
            · refine List.Chain'.append hch (List.chain'_singleton _) ?_
              intro x hx y hy
              rw [List.head?_cons, Option.mem_def, Option.some.injEq] at hy
              subst hy
              have hxm : x ∈ results := by
                obtain ⟨hne, hx'⟩ := List.mem_getLast?_eq_getLast hx
                rw [hx']
                exact List.getLast_mem hne
              have hxp : x <+: pfx := hpre x hxm
              constructor
              · exact hxp.trans (List.prefix_append pfx [l])
              · have := hxp.length_le
                simp only [List.length_append, List.length_singleton]
                omega
            · intro r hr
              rcases List.mem_append.mp hr with h | h
              · exact (hpre r h).trans (List.prefix_append pfx [l])
              · rw [List.mem_singleton.mp h]
          · rw [cpsLoop_cons_some _ _ _ hlk, if_neg hlc]
            refine ih c (pfx ++ [l]) _ hch ?_
            intro r hr
            exact (hpre r hr).trans (List.prefix_append pfx [l])

/-! ### push leaves existing caches untouched (for the staleness claim) -/

theorem walk_push [DecidableEq Label] (p : List Label) :
    ∀ (e : List Label) (n m : Node Label), walk n p = some m →
      ∃ m', walk (n.push e) p = some m' ∧ m'.subwords = m.subwords := by
  induction p with
  | nil =>
      intro e n m h
      rw [walk_nil, Option.some.injEq] at h
      refine ⟨n.push e, walk_nil _, ?_⟩
      rw [subwords_push, h]
  | cons b p' ih =>
      intro e n m h
      cases hlk : lookupChild n.children b with
      | none =>
          rw [walk_cons_none p' hlk] at h
          exact absurd h (by simp)
      | some c =>
          rw [walk_cons_some p' hlk] at h
          cases e with
          | nil =>
              obtain ⟨bb, s, cs⟩ := n
              rw [push_nil]
              refine ⟨m, ?_, rfl⟩
              rw [walk_cons_some p' (show lookupChild (Node.mk true s cs).children b = some c from by simpa using hlk)]
              exact h
          | cons a e' =>
              obtain ⟨bb, s, cs⟩ := n
              rw [push_cons]
              by_cases hab : a = b
              · subst hab
                have hlk' : lookupChild cs a = some c := by simpa using hlk
                have hcd : (lookupChild cs a).getD Node.defaultNode = c := by rw [hlk']; rfl
                obtain ⟨m', hm', hs⟩ := ih e' c m h
                have hlk2 : lookupChild (Node.mk bb s (insertChild cs a
                    (((lookupChild cs a).getD Node.defaultNode).push e'))).children a
                    = some (c.push e') := by
                  rw [children_mk, lookup_insert, if_pos rfl, hcd]
                refine ⟨m', ?_, hs⟩
                rw [walk_cons_some p' hlk2]
                exact hm'
              · have hlk2 : lookupChild (Node.mk bb s (insertChild cs a
                    (((lookupChild cs a).getD Node.defaultNode).push e'))).children b
                    = some c := by
                  rw [children_mk, lookup_insert, if_neg hab]
                  simpa using hlk
                refine ⟨m, ?_, rfl⟩
                rw [walk_cons_some p' hlk2]
                exact h

/-! ### clear: the part of a node consulted by push and build_index -/

theorem clear_defaultNode : (Node.defaultNode : Node Label).clear = Node.defaultNode := rfl

theorem lookup_clearChildren [DecidableEq Label] (l : Label) (cs : List (Label × Node Label)) :
    lookupChild (clearChildren cs) l = (lookupChild cs l).map Node.clear := by
  induction cs with
  | nil => simp [lookupChild]
  | cons p rest ih =>
      obtain ⟨a, c⟩ := p
      by_cases h : a = l
      · subst h
        simp [lookupChild]
      · simp [lookupChild, h, ih]

theorem clearChildren_insert [DecidableEq Label] (cs : List (Label × Node Label))
    (l : Label) (v : Node Label) :
    clearChildren (insertChild cs l v) = insertChild (clearChildren cs) l v.clear := by
  induction cs with
  | nil => simp [insertChild]
  | cons p rest ih =>
      obtain ⟨a, c⟩ := p
      by_cases h : a = l
      · subst h
        simp [insertChild]
      · simp [insertChild, h, ih]

theorem clear_push [DecidableEq Label] (e : List Label) :
    ∀ n : Node Label, (n.push e).clear = n.clear.push e := by
  induction e with
  | nil =>
      intro n
      obtain ⟨b, s, cs⟩ := n
      simp
  | cons l e' ih =>
      intro n
      obtain ⟨b, s, cs⟩ := n
      rw [push_cons, clear_mk, clearChildren_insert, clear_mk, push_cons]
      rw [ih]
      rw [lookup_clearChildren]
      cases hlk : lookupChild cs l with
      | none => rfl
      | some c => rfl

mutual
/-- `_build_index` only reads leaf flags and children, never old caches. -/
theorem build_clear [DecidableEq Label] (pfx : List Label) :
    ∀ n : Node Label, buildNode pfx n.clear = buildNode pfx n
  | .mk b s cs => by
      rw [clear_mk, buildNode_mk, buildNode_mk, build_clear_children pfx cs]
/-- The children part of `build_clear`. -/
theorem build_clear_children [DecidableEq Label] (pfx : List Label) :
    ∀ cs : List (Label × Node Label), buildChildren pfx (clearChildren cs) = buildChildren pfx cs
  | [] => rfl
  | (a, c) :: rest => by
      rw [clearChildren_cons, buildChildren_cons, buildChildren_cons,
        build_clear (pfx ++ [a]) c, build_clear_children pfx rest]
end

mutual
/-- `_build_index` preserves leaf flags and children. -/
theorem clear_build [DecidableEq Label] (pfx : List Label) :
    ∀ n : Node Label, (buildNode pfx n).clear = n.clear
  | .mk b s cs => by
      rw [buildNode_mk, clear_mk, clear_mk, clear_build_children pfx cs]
/-- The children part of `clear_build`. -/
theorem clear_build_children [DecidableEq Label] (pfx : List Label) :
    ∀ cs : List (Label × Node Label), clearChildren (buildChildren pfx cs) = clearChildren cs
  | [] => rfl
  | (a, c) :: rest => by
      rw [buildChildren_cons, clearChildren_cons, clearChildren_cons,
        clear_build (pfx ++ [a]) c, clear_build_children pfx rest]
end

theorem build_eq_of_clear_eq [DecidableEq Label] (pfx : List Label) {m m' : Node Label}
    (h : m.clear = m'.clear) : buildNode pfx m = buildNode pfx m' := by
  rw [← build_clear pfx m, ← build_clear pfx m', h]

/-! ### paths: the set of nodes of the graph, as root-to-node label paths -/

theorem mem_pathsChildren (w : List Label) (cs : List (Label × Node Label)) :
    w ∈ pathsChildren cs ↔ ∃ p ∈ cs, ∃ w', w = p.1 :: w' ∧ w' ∈ p.2.paths := by
  induction cs with
  | nil => simp
  | cons p rest ih =>
      obtain ⟨a, c⟩ := p
      rw [pathsChildren_cons, List.mem_append, ih]
      constructor
      · rintro (h | h)
        · obtain ⟨w', hw', heq⟩ := List.mem_map.mp h
          exact ⟨(a, c), List.mem_cons_self _ _, w', heq.symm, hw'⟩
        · obtain ⟨p, hp, w', heq, hw'⟩ := h
          exact ⟨p, List.mem_cons_of_mem _ hp, w', heq, hw'⟩
      · rintro ⟨p, hp, w', heq, hw'⟩
        rcases List.mem_cons.mp hp with h | h
        · subst h
          left
          exact List.mem_map.mpr ⟨w', hw', heq.symm⟩
        · right
          exact ⟨p, h, w', heq, hw'⟩

theorem nil_mem_paths (n : Node Label) : [] ∈ n.paths := by
  obtain ⟨b, s, cs⟩ := n
  rw [paths_mk]
  exact List.mem_cons_self _ _

theorem mem_paths_cons [DecidableEq Label] {b : Bool} {s : List (List Label)}
    {cs : List (Label × Node Label)} (hk : (cs.map Prod.fst).Nodup) (l : Label) (w : List Label) :
    (l :: w) ∈ (Node.mk b s cs).paths ↔ ∃ c, lookupChild cs l = some c ∧ w ∈ c.paths := by
  rw [paths_mk, List.mem_cons]
  constructor
  · rintro (h | h)
    · exact absurd h (by simp)
    · obtain ⟨p, hp, w', heq, hw'⟩ := (mem_pathsChildren _ cs).mp h
      obtain ⟨a, c⟩ := p
      injection heq with h1 h2
      subst h1
      subst h2
      exact ⟨c, mem_lookup hk hp, hw'⟩
  · rintro ⟨c, hlk, hw⟩
    right
    exact (mem_pathsChildren _ cs).mpr ⟨(l, c), lookup_mem hlk, w, rfl, hw⟩

theorem paths_defaultNode : (Node.defaultNode : Node Label).paths = [[]] := rfl

theorem paths_push [DecidableEq Label] (e : List Label) :
    ∀ n : Node Label, n.WF → ∀ w : List Label,
      (w ∈ (n.push e).paths ↔ w ∈ n.paths ∨ w <+: e) := by
  induction e with
  | nil =>
      intro n _ w
      obtain ⟨b, s, cs⟩ := n
      rw [push_nil, paths_mk, paths_mk]
      constructor
      · intro h
        exact Or.inl h
      · rintro (h | h)
        · exact h
        · rw [List.prefix_nil.mp h]
          exact List.mem_cons_self _ _
  | cons l e' ih =>
      intro n hw w
      obtain ⟨b, s, cs⟩ := n
      cases hw with
      | mk hk hc =>
      rw [push_cons]
      cases w with
      | nil =>
          constructor
          · intro _
            exact Or.inl (nil_mem_paths _)
          · intro _
            exact nil_mem_paths _
      | cons bw w' =>
          have hk' : ((insertChild cs l
              (((lookupChild cs l).getD Node.defaultNode).push e')).map Prod.fst).Nodup := by
            rw [keys_insert]
            by_cases hm : l ∈ cs.map Prod.fst
            · simpa [hm] using hk
            · rw [if_neg hm, List.nodup_append]
              refine ⟨hk, List.nodup_singleton l, ?_⟩
              intro x hx hxl
              rw [List.mem_singleton] at hxl
              subst hxl
              exact hm hx
          rw [mem_paths_cons hk', mem_paths_cons hk]
          by_cases hbl : bw = l
          · subst hbl
            have hli : lookupChild (insertChild cs bw
                (((lookupChild cs bw).getD Node.defaultNode).push e')) bw
                = some (((lookupChild cs bw).getD Node.defaultNode).push e') := by
              rw [lookup_insert, if_pos rfl]
            constructor
            · rintro ⟨c, hc, hwp⟩
              rw [hli, Option.some.injEq] at hc
              subst hc
              cases hlk : lookupChild cs bw with
              | none =>
                  rw [hlk] at hwp
                  rcases (ih _ wf_defaultNode w').mp hwp with h | h
                  · rw [paths_defaultNode, List.mem_singleton] at h
                    subst h
                    exact Or.inr (List.cons_prefix_cons.mpr ⟨rfl, List.nil_prefix⟩)
                  · exact Or.inr (List.cons_prefix_cons.mpr ⟨rfl, h⟩)
              | some c0 =>
                  rw [hlk] at hwp
                  rcases (ih c0 (hc _ (lookup_mem hlk)) w').mp hwp with h | h
                  · exact Or.inl ⟨c0, rfl, h⟩
                  · exact Or.inr (List.cons_prefix_cons.mpr ⟨rfl, h⟩)
            · rintro (⟨c0, hlk, hwp⟩ | hpre)
              · refine ⟨_, hli, ?_⟩
                have hcd : (lookupChild cs bw).getD Node.defaultNode = c0 := by
                  rw [hlk]; rfl
                rw [hcd]
                exact (ih c0 (hc _ (lookup_mem hlk)) w').mpr (Or.inl hwp)
              · obtain ⟨_, hpre'⟩ := List.cons_prefix_cons.mp hpre
                refine ⟨_, hli, ?_⟩
                cases hlk : lookupChild cs bw with
                | none =>
                    exact (ih _ wf_defaultNode w').mpr (Or.inr hpre')
                | some c0 =>
                    exact (ih c0 (hc _ (lookup_mem hlk)) w').mpr (Or.inr hpre')
          · have hli : lookupChild (insertChild cs l
                (((lookupChild cs l).getD Node.defaultNode).push e')) bw
                = lookupChild cs bw := by
              rw [lookup_insert, if_neg (fun h => hbl h.symm)]
            rw [hli]
            constructor
            · intro h
              exact Or.inl h
            · rintro (h | h)
              · exact h
              · obtain ⟨h1, _⟩ := List.cons_prefix_cons.mp h
                exact absurd h1 hbl

mutual
/-- Distinct reachable nodes have distinct paths (given distinct child keys). -/
theorem nodup_paths : ∀ n : Node Label, n.WF → n.paths.Nodup
  | .mk b s cs, hw => by
      cases hw with
      | mk hk hc =>
      rw [paths_mk, List.nodup_cons]
      refine ⟨?_, nodup_pathsChildren cs hk hc⟩
      intro hmem
      obtain ⟨p, _, w', heq, _⟩ := (mem_pathsChildren _ cs).mp hmem
      exact absurd heq (by simp)
/-- The children part of `nodup_paths`. -/
theorem nodup_pathsChildren : ∀ cs : List (Label × Node Label),
    (cs.map Prod.fst).Nodup → (∀ p ∈ cs, p.2.WF) → (pathsChildren cs).Nodup
  | [], _, _ => by simp
  | (a, c) :: rest, hk, hc => by
      rw [List.map_cons, List.nodup_cons] at hk
      rw [pathsChildren_cons, List.nodup_append]
      refine ⟨(nodup_paths c (hc _ (List.mem_cons_self _ _))).map ?_,
        nodup_pathsChildren rest hk.2 (fun p hp => hc p (List.mem_cons_of_mem _ hp)), ?_⟩
      · intro x y hxy
        injection hxy
      · intro x hx hxr
        obtain ⟨w1, _, heq1⟩ := List.mem_map.mp hx
        obtain ⟨p, hp, w2, heq2, _⟩ := (mem_pathsChildren _ rest).mp hxr
        rw [← heq1] at heq2
        injection heq2 with h1 _
        exact hk.1 (h1 ▸ List.mem_map.mpr ⟨p, hp, rfl⟩)
end

mutual
/-- `paths` lists exactly one entry per node. -/
theorem length_paths : ∀ n : Node Label, n.paths.length = n.countNodes
  | .mk b s cs => by
      rw [paths_mk, countNodes_mk, List.length_cons, length_pathsChildren cs]
      omega
/-- The children part of `length_paths`. -/
theorem length_pathsChildren : ∀ cs : List (Label × Node Label),
    (pathsChildren cs).length = countChildren cs
  | [] => rfl
  | (a, c) :: rest => by
      rw [pathsChildren_cons, List.length_append, List.length_map, length_paths c,
        length_pathsChildren rest, countChildren_cons]
end

theorem mem_paths_foldl [DecidableEq Label] (ws : List (List Label)) :
    ∀ n : Node Label, n.WF → ∀ w : List Label,
      (w ∈ (ws.foldl Node.push n).paths ↔ w ∈ n.paths ∨ ∃ s ∈ ws, w <+: s) := by
  induction ws with
  | nil =>
      intro n _ w
      simp
  | cons v rest ih =>
      intro n hw w
      rw [List.foldl_cons, ih (n.push v) (wf_push v n hw) w, paths_push v n hw w]
      constructor
      · rintro ((h | h) | ⟨s, hs, hp⟩)
        · exact Or.inl h
        · exact Or.inr ⟨v, List.mem_cons_self _ _, h⟩
        · exact Or.inr ⟨s, List.mem_cons_of_mem _ hs, hp⟩
      · rintro (h | ⟨s, hs, hp⟩)
        · exact Or.inl (Or.inl h)
        · rcases List.mem_cons.mp hs with h' | h'
          · subst h'
            exact Or.inl (Or.inr hp)
          · exact Or.inr ⟨s, h', hp⟩

theorem nodup_inits_trie (e : List Label) : e.inits.Nodup := by
  induction e with
  | nil => simp
  | cons a e' ih =>
      rw [List.inits_cons, List.nodup_cons]
      refine ⟨?_, ih.map ?_⟩
      · intro hmem
        obtain ⟨w, _, heq⟩ := List.mem_map.mp hmem
        exact absurd heq (by simp)
      · intro x y hxy
        injection hxy

theorem paths_push_perm [DecidableEq Label] (e : List Label) (n : Node Label) (hw : n.WF) :
    (n.push e).paths.Perm (n.paths ++ e.inits.filter (fun p => p ∉ n.paths)) := by
  refine (List.perm_ext_iff_of_nodup (nodup_paths _ (wf_push e n hw)) ?_).mpr ?_
  · rw [List.nodup_append]
    refine ⟨nodup_paths n hw, (nodup_inits_trie e).filter _, ?_⟩
    intro x hx hxf
    rw [List.mem_filter] at hxf
    exact absurd hx (by simpa using hxf.2)
  · intro w
    rw [paths_push e n hw w, List.mem_append, List.mem_filter]
    simp only [List.mem_inits, decide_not, Bool.not_eq_true', decide_eq_false_iff_not]
    by_cases hm : w ∈ n.paths
    · simp [hm]
    · simp [hm]

theorem countNodes_push [DecidableEq Label] (e : List Label) (n : Node Label) (hw : n.WF) :
    (n.push e).countNodes
      = n.countNodes + (e.inits.filter (fun p => p ∉ n.paths)).length := by
  rw [← length_paths, ← length_paths, (paths_push_perm e n hw).length_eq, List.length_append]

theorem push_push [DecidableEq Label] (e : List Label) :
    ∀ n : Node Label, (n.push e).push e = n.push e := by
  induction e with
  | nil =>
      intro n
      obtain ⟨b, s, cs⟩ := n
      rw [push_nil, push_nil]
  | cons l e' ih =>
      intro n
      obtain ⟨b, s, cs⟩ := n
      rw [push_cons, push_cons, lookup_insert, if_pos rfl, Option.getD_some,
        ih, insert_insert]

theorem count_one_of_nodup_mem {α : Type} [BEq α] [LawfulBEq α] {l : List α} {a : α}
    (h1 : l.Nodup) (h2 : a ∈ l) : l.count a = 1 := by
  induction l with
  | nil => exact absurd h2 (by simp)
  | cons b l' ih =>
      rw [List.nodup_cons] at h1
      rcases List.mem_cons.mp h2 with h | h
      · subst h
        rw [List.count_cons_self, List.count_eq_zero.mpr h1.1]
      · have hne : a ≠ b := fun hab => h1.1 (hab ▸ h)
        rw [List.count_cons_of_ne hne, ih h1.2 h]

/-! ### The claims -/

/-- C1: in a trie built by pushes followed by `build_index`, for every query
whose path exists, `search` succeeds and its result lists exactly the pushed
sequences extending the query, each exactly once and nothing else; in
particular every pushed sequence is found by searching for itself. -/
theorem claim_C1 [DecidableEq Label] (ws : List (List Label)) (Q : List Label)
    (h : ∃ m, walk (builtTrie ws).root Q = some m) :
    ∃ L, (builtTrie ws).search Q = .ok L ∧
      (∀ S, S ∈ ws ∧ Q <+: S → L.count S = 1) ∧
      (∀ S, S ∉ ws ∨ ¬ Q <+: S → L.count S = 0) ∧
      (∀ S ∈ ws, ∃ LS, (builtTrie ws).search S = .ok LS ∧ LS.count S = 1) := by
  obtain ⟨m, hm⟩ := h
  rw [builtTrie_eq] at hm
  have hb : walk (buildNode [] (trieOf ws).root) Q = some m := hm
  rw [walk_build] at hb
  cases h0 : walk (trieOf ws).root Q with
  | none =>
      rw [h0] at hb
      exact absurd hb (by simp)
  | some m0 =>
      obtain ⟨hok, hnd, hmem⟩ := built_search_ok ws Q h0
      refine ⟨(buildNode Q m0).subwords, hok, ?_, ?_, ?_⟩
      · intro S hS
        exact count_one_of_nodup_mem hnd ((hmem S).mpr hS)
      · intro S hS
        refine List.count_eq_zero.mpr ?_
        intro hc
        rcases hS with hS | hS
        · exact hS ((hmem S).mp hc).1
        · exact hS ((hmem S).mp hc).2
      · intro S hS
        have hcon : (trieOf ws).root.contains S = true := (contains_trieOf ws S).mpr hS
        obtain ⟨mS, hwS, _⟩ := (contains_iff_walk _ S).mp hcon
        obtain ⟨hokS, hndS, hmemS⟩ := built_search_ok ws S hwS
        exact ⟨(buildNode S mS).subwords, hokS,
          count_one_of_nodup_mem hndS ((hmemS S).mpr ⟨hS, List.prefix_refl S⟩)⟩

/-- C1 witness: a pushed word is found by searching for itself. -/
theorem claim_C1_witness :
    ∃ L, (builtTrie [[0, 1]] : Trie Nat).search [0] = .ok L ∧
      (∀ S, S ∈ [[0, 1]] ∧ [0] <+: S → L.count S = 1) ∧
      (∀ S, S ∉ [[0, 1]] ∨ ¬ [0] <+: S → L.count S = 0) ∧
      (∀ S ∈ [[0, 1]], ∃ LS, (builtTrie [[0, 1]] : Trie Nat).search S = .ok LS ∧ LS.count S = 1) :=
  claim_C1 [[0, 1]] [0] ⟨buildNode [0] (Node.mk false [] [(1, Node.mk true [] [])]), rfl⟩

/-- C2 counterexample: after pushing the empty sequence, the empty sequence
is stored and is a prefix of the query `[]`, yet `common_prefix_search`
returns a list not containing it (the loop never inspects the root's leaf
flag), refuting the claim's "including the empty sequence" part. -/
theorem claim_C2_counterexample :
    (Trie.defaultTrie.push ([] : List Nat)).root.contains [] = true ∧
    ([] : List Nat) <+: [] ∧
    (Trie.defaultTrie.push ([] : List Nat)).common_prefix_search [] = [] ∧
    [] ∉ (Trie.defaultTrie.push ([] : List Nat)).common_prefix_search [] := by
  refine ⟨rfl, List.prefix_refl [], rfl, ?_⟩
  intro h
  simp [Trie.common_prefix_search, cpsLoop] at h

/-- C2 amended: `common_prefix_search` returns exactly the stored nonempty
sequences that are prefixes of the query; a pushed empty sequence never
appears in the result. -/
theorem claim_C2 [DecidableEq Label] (ws : List (List Label)) (Q I : List Label) :
    I ∈ (trieOf ws).common_prefix_search Q ↔ (I ≠ [] ∧ I ∈ ws ∧ I <+: Q) := by
  rw [mem_cps, contains_trieOf]
  constructor
  · rintro ⟨h1, h2, h3⟩
    exact ⟨h1, h3, h2⟩
  · rintro ⟨h1, h2, h3⟩
    exact ⟨h1, h3, h2⟩

/-- C2 witness: a stored nonempty prefix of the query is returned. -/
theorem claim_C2_witness : ([0] : List Nat) ∈ (trieOf [[0]] : Trie Nat).common_prefix_search [0] :=
  (claim_C2 [[0]] [0] [0]).mpr ⟨by decide, by decide, by decide⟩

/-- C3: `search` fails with `IndexNotBuilt` exactly when the flag is unset,
regardless of the query; with the flag set it fails with `NoResultFound`
exactly when the walk dies, and otherwise returns the arrived node's cached
list, empty or not. -/
theorem claim_C3 [DecidableEq Label] (t : Trie Label) (Q : List Label) :
    (t.has_search_index = false → t.search Q = .error .IndexNotBuilt) ∧
    (t.has_search_index = true →
      ((walk t.root Q = none → t.search Q = .error .NoResultFound) ∧
       (∀ m, walk t.root Q = some m → t.search Q = .ok m.subwords))) := by
  obtain ⟨flag, root⟩ := t
  cases flag with
  | false =>
      refine ⟨fun _ => search_false root Q, ?_⟩
      intro h
      exact absurd h (by simp)
  | true =>
      refine ⟨fun h => absurd h (by simp), fun _ => ⟨?_, ?_⟩⟩
      · intro h
        rw [search_true, h]
      · intro m h
        rw [search_true, h]

/-- C3 witness: a fresh trie rejects every search with `IndexNotBuilt`; an
indexed trie distinguishes a dead walk from a successful one. -/
theorem claim_C3_witness :
    (Trie.defaultTrie : Trie Nat).search [0] = .error .IndexNotBuilt ∧
    (Trie.defaultTrie : Trie Nat).build_index.search [0] = .error .NoResultFound ∧
    (Trie.defaultTrie : Trie Nat).build_index.search [] = .ok (buildNode [] Node.defaultNode).subwords :=
  ⟨(claim_C3 Trie.defaultTrie [0]).1 rfl,
   ((claim_C3 (Trie.defaultTrie : Trie Nat).build_index [0]).2 rfl).1 rfl,
   ((claim_C3 (Trie.defaultTrie : Trie Nat).build_index []).2 rfl).2 _ rfl⟩

/-- C4: the list returned by `common_prefix_search` walks the query path in
order: every element is a strict prefix of the next (hence strictly
shorter), and every element is a prefix of the query. -/
theorem claim_C4 [DecidableEq Label] (t : Trie Label) (Q : List Label) :
    List.Chain' (fun a b => a <+: b ∧ a.length < b.length) (t.common_prefix_search Q) ∧
    ∀ r ∈ t.common_prefix_search Q, r <+: Q := by
  constructor
  · show List.Chain' _ (cpsLoop t.root [] [] Q)
    exact chain_cpsLoop Q t.root [] [] List.chain'_nil (by simp)
  · intro r hr
    exact ((mem_cps t Q r).mp hr).2.1

/-- C4 witness: chain property on a concrete trie, and a concrete element
of the result is a prefix of the query. -/
theorem claim_C4_witness :
    List.Chain' (fun a b => a <+: b ∧ a.length < b.length)
      ((trieOf [[0], [0, 1]] : Trie Nat).common_prefix_search [0, 1]) ∧
    ([0] : List Nat) <+: [0, 1] :=
  ⟨(claim_C4 (trieOf [[0], [0, 1]]) [0, 1]).1,
   (claim_C4 (trieOf [[0], [0, 1]]) [0, 1]).2 [0] (by decide)⟩

/-- C5: `common_prefix_search` never errors: it is a total function into
plain lists, a query whose first symbol has no child yields `[]`, and more
generally the result is empty exactly when no nonempty stored sequence is a
prefix of the query. -/
theorem claim_C5 [DecidableEq Label] (t : Trie Label) (Q : List Label) :
    (∀ l rest, lookupChild t.root.children l = none →
      t.common_prefix_search (l :: rest) = []) ∧
    (t.common_prefix_search Q = [] ↔
      ∀ I, I ≠ [] → I <+: Q → t.root.contains I ≠ true) := by
  constructor
  · intro l rest hlk
    show cpsLoop t.root [] [] (l :: rest) = []
    exact cpsLoop_cons_none [] [] rest hlk
  · rw [List.eq_nil_iff_forall_not_mem]
    constructor
    · intro h I h1 h2 h3
      exact h I ((mem_cps t Q I).mpr ⟨h1, h2, h3⟩)
    · intro h I hI
      obtain ⟨h1, h2, h3⟩ := (mem_cps t Q I).mp hI
      exact h I h1 h2 h3

/-- C5 witness: a query sharing no path with the trie returns the empty
list rather than an error. -/
theorem claim_C5_witness :
    (Trie.defaultTrie : Trie Nat).common_prefix_search [0, 1] = [] :=
  (claim_C5 (Trie.defaultTrie : Trie Nat) [0, 1]).1 0 [1] rfl

/-- C6: push is idempotent: pushing a sequence twice leaves the trie in the
same state as pushing it once, so all subsequent search and
common_prefix_search results coincide and no duplicates arise. -/
theorem claim_C6 [DecidableEq Label] (t : Trie Label) (e : List Label) :
    (t.push e).push e = t.push e ∧
    (∀ Q, ((t.push e).push e).build_index.search Q = (t.push e).build_index.search Q) ∧
    (∀ Q, ((t.push e).push e).common_prefix_search Q
        = (t.push e).common_prefix_search Q) := by
  have hpp : (t.push e).push e = t.push e := by
    show (⟨t.has_search_index, (t.root.push e).push e⟩ : Trie Label)
        = ⟨t.has_search_index, t.root.push e⟩
    rw [push_push]
  exact ⟨hpp, fun Q => by rw [hpp], fun Q => by rw [hpp]⟩

/-- C6 witness: idempotence on a concrete trie. -/
theorem claim_C6_witness :
    ((Trie.defaultTrie : Trie Nat).push [0]).push [0] = (Trie.defaultTrie : Trie Nat).push [0] :=
  (claim_C6 Trie.defaultTrie [0]).1

/-- C7: the node graph shares prefixes maximally: the reachable nodes are,
besides the root, in bijection with the distinct prefixes of the pushed
sequences (no duplicate paths), and a further push only creates nodes for
the prefixes of the pushed sequence that are not yet present. -/
theorem claim_C7 [DecidableEq Label] (ws : List (List Label)) :
    (trieOf ws).root.paths.Nodup ∧
    (∀ w, w ∈ (trieOf ws).root.paths ↔ (w = [] ∨ ∃ s ∈ ws, w <+: s)) ∧
    (∀ e, ((trieOf ws).push e).root.countNodes
        = (trieOf ws).root.countNodes
          + ((e.inits.filter (fun p => p ∉ (trieOf ws).root.paths)).length)) := by
  refine ⟨nodup_paths _ (wf_trieOf ws), ?_, ?_⟩
  · intro w
    rw [trieOf_eq]
    show w ∈ (ws.foldl Node.push Node.defaultNode).paths ↔ _
    rw [mem_paths_foldl ws Node.defaultNode wf_defaultNode w, paths_defaultNode,
      List.mem_singleton]
  · intro e
    exact countNodes_push e (trieOf ws).root (wf_trieOf ws)

/-- C7 witness: a prefix of a pushed sequence is a node path in a concrete
trie. -/
theorem claim_C7_witness :
    ([0] : List Nat) ∈ (trieOf [[0, 1]] : Trie Nat).root.paths :=
  ((claim_C7 [[0, 1]]).2.1 [0]).mpr (Or.inr ⟨[0, 1], by decide, by decide⟩)

/-- C8: `build_index` sets the flag; a later push neither clears it nor
touches any existing node's cached completions, so `search` on an existing
path still succeeds with the (possibly stale) cache left by `build_index`. -/
theorem claim_C8 [DecidableEq Label] (t : Trie Label) (e p : List Label) (m : Node Label)
    (h : walk t.build_index.root p = some m) :
    t.build_index.has_search_index = true ∧
    (t.build_index.push e).has_search_index = true ∧
    (t.build_index.push e).search p = .ok m.subwords := by
  obtain ⟨m', hm', hs⟩ := walk_push p e t.build_index.root m h
  refine ⟨rfl, rfl, ?_⟩
  show Trie.search ⟨true, t.build_index.root.push e⟩ p = _
  rw [search_true, hm']
  show Except.ok m'.subwords = Except.ok m.subwords
  rw [hs]

/-- C8 witness: after `build_index` then a push, the flag is still set and
searching an existing path returns the stale cache. -/
theorem claim_C8_witness :
    (Trie.defaultTrie : Trie Nat).build_index.has_search_index = true ∧
    ((Trie.defaultTrie : Trie Nat).build_index.push [0]).has_search_index = true ∧
    ((Trie.defaultTrie : Trie Nat).build_index.push [0]).search []
      = .ok (buildNode [] Node.defaultNode).subwords :=
  claim_C8 Trie.defaultTrie [0] [] (buildNode [] Node.defaultNode) rfl

/-- C9: the documented example: push "Alabama", "Alaska", "Alas", build the
index; `search "Alas"` returns exactly ["Alas", "Alaska"] in that order and
`common_prefix_search "Alaska"` returns exactly ["Alas", "Alaska"]. -/
theorem claim_C9 :
    (((((TrieBuilder.new true).push ['A', 'l', 'a', 'b', 'a', 'm', 'a']).push
        ['A', 'l', 'a', 's', 'k', 'a']).push ['A', 'l', 'a', 's']).build.search
        ['A', 'l', 'a', 's']
      = .ok [['A', 'l', 'a', 's'], ['A', 'l', 'a', 's', 'k', 'a']]) ∧
    (((((TrieBuilder.new true).push ['A', 'l', 'a', 'b', 'a', 'm', 'a']).push
        ['A', 'l', 'a', 's', 'k', 'a']).push ['A', 'l', 'a', 's']).build.common_prefix_search
        ['A', 'l', 'a', 's', 'k', 'a']
      = [['A', 'l', 'a', 's'], ['A', 'l', 'a', 's', 'k', 'a']]) :=
  ⟨rfl, rfl⟩

/-- C10: `build_index` overwrites every cache from scratch: rebuilding with
no intervening push changes nothing, and rebuilding after a push gives the
same trie as if the index had been built for the first time. -/
theorem claim_C10 [DecidableEq Label] (t : Trie Label) :
    t.build_index.build_index = t.build_index ∧
    ∀ e, (t.build_index.push e).build_index = (t.push e).build_index := by
  constructor
  · show (⟨true, buildNode [] (buildNode [] t.root)⟩ : Trie Label)
        = ⟨true, buildNode [] t.root⟩
    rw [build_eq_of_clear_eq [] (clear_build [] t.root)]
  · intro e
    show (⟨true, buildNode [] ((buildNode [] t.root).push e)⟩ : Trie Label)
        = ⟨true, buildNode [] (t.root.push e)⟩
    rw [build_eq_of_clear_eq [] (show ((buildNode [] t.root).push e).clear
        = (t.root.push e).clear by rw [clear_push, clear_push, clear_build])]

/-- C10 witness: rebuilding the index of a concrete trie changes nothing. -/
theorem claim_C10_witness :
    (Trie.defaultTrie : Trie Nat).build_index.build_index
      = (Trie.defaultTrie : Trie Nat).build_index :=
  (claim_C10 Trie.defaultTrie).1

end TrieRs
